import Mathlib

/-!
Verification of the context-tracker repository's core components against its
specification: the change extractor (`src/core/session_analyzer.py`), the
topic classifier (`src/core/topic_detector.py`), the encoded-path
reconstruction (`src/hooks/stop.py`) and the knowledge-base merger
(`src/core/wiki_merger.py`).  Python dictionaries are modelled as structures
holding exactly the fields the code reads, fallible JSON decoding and the
uncaught per-line exceptions as explicit variants, the filesystem as an
explicit `String → Bool` existence oracle, and floats as exact rationals.
-/

namespace ContextTracker

/-! ## Data model (session_analyzer.py) -/

/-- Model of the `tool_input` dictionary of one tool use.  The code reads
`file_path` (absent key → `none`), and the description heuristics read
`content`, `old_string`, `new_string` and `edits` (modelled by its length). -/
structure ToolInput where
  file_path : Option String := none
  content : String := ""
  old_string : String := ""
  new_string : String := ""
  edits : Nat := 0
deriving Repr, DecidableEq

/-- One entry of the list built by `SessionAnalyzer._parse_transcript`:
`{'name': item.get('name'), 'input': item.get('input', {}), 'timestamp': entry.get('timestamp')}`. -/
structure ToolUse where
  name : Option String := none
  input : ToolInput := {}
  timestamp : Option String := none
deriving Repr, DecidableEq

/-- `FileChange` dataclass of `session_analyzer.py`. -/
structure FileChange where
  file_path : String
  action : String
  description : String
  lines_added : Nat := 0
  lines_removed : Nat := 0
deriving Repr, DecidableEq

/-- One element of `message.content[]` in a transcript line: either a
dictionary with `type == 'tool_use'` (carrying `name` and `input`), or
anything else (non-dict items, text items, tool results), which the parser
ignores. -/
inductive ContentItem where
  | toolUse (name : Option String) (input : ToolInput) : ContentItem
  | other : ContentItem
deriving Repr, DecidableEq

/-- A transcript line that JSON-decoded to a dictionary whose `message`
value is also a dictionary (or absent) — the only shape the per-line body
of `_parse_transcript` survives.  `content` is `entry.message.content`
when that value is a list (`some items`; a missing `message` or `content`
key defaults to the empty list), and `none` when the value is present but
not a list (the guarded `isinstance(content, list)`).  Lines of any other
decoded shape raise and are represented by `TranscriptLine.badShape`. -/
structure TranscriptEntry where
  content : Option (List ContentItem) := some []
  timestamp : Option String := none
deriving Repr, DecidableEq

/-- One raw transcript line, as `_parse_transcript` sees it:
`malformed` — `json.loads` raises `JSONDecodeError` (caught, line
skipped); `badShape` — `json.loads` succeeds but the value is not a
dictionary (`null`, a number, a string, a list), or its `message` value
is not a dictionary, so `entry.get('message', {})` or
`message.get('content', [])` raises `AttributeError`, which no handler in
`_parse_transcript` catches; `entry` — a well-shaped line. -/
inductive TranscriptLine where
  | malformed : TranscriptLine
  | badShape : TranscriptLine
  | entry (e : TranscriptEntry) : TranscriptLine
deriving Repr, DecidableEq

/-- `SessionContext` dataclass of `session_analyzer.py`. -/
structure SessionContext where
  user_goal : String := ""
  summary : String := ""
  decisions_made : List String := []
  problems_solved : List String := []
  future_work : List String := []
deriving Repr, DecidableEq

/-! ## Change extractor (`SessionAnalyzer`) -/

/-- Membership in `FILE_MODIFICATION_TOOLS = {'Edit', 'Write', 'MultiEdit', 'NotebookEdit'}`;
`tool.get('name')` can be `None`, which is in no set. -/
def isModTool (name : Option String) : Bool :=
  name == some "Edit" || name == some "Write" || name == some "MultiEdit" ||
    name == some "NotebookEdit"

/-- The tool uses contributed by one decoded transcript line: the items of
`message.content` whose declared type is `tool_use`, tagged with the line's
timestamp (`_parse_transcript`, inner loop). -/
def entryToolUses (e : TranscriptEntry) : List ToolUse :=
  match e.content with
  | none => []
  | some items =>
    items.filterMap fun it =>
      match it with
      | ContentItem.toolUse n inp => some { name := n, input := inp, timestamp := e.timestamp }
      | ContentItem.other => none

/-- `SessionAnalyzer._parse_transcript` over the lines of an existing
transcript file.  A `JSONDecodeError` line is skipped (`continue`) and
parsing resumes with the next line; a `badShape` line raises
`AttributeError`, which escapes both the inner `except JSONDecodeError`
and the outer `except (IOError, OSError)`, aborting the pass and losing
the accumulated `tool_uses` (`none`). -/
def parseTranscript : List TranscriptLine → Option (List ToolUse)
  | [] => some []
  | TranscriptLine.malformed :: rest => parseTranscript rest
  | TranscriptLine.badShape :: _ => none
  | TranscriptLine.entry e :: rest =>
    match parseTranscript rest with
    | none => none
    | some ts => some (entryToolUses e ++ ts)

/-- The action classification of `_extract_changes_from_tools`: `modified`,
except that a `Write` whose target path does not exist on the filesystem
(oracle `fsExists`) at extraction time is `created`. -/
def changeAction (fsExists : String → Bool) (name : Option String) (fp : String) : String :=
  if name == some "Write" && !fsExists fp then "created" else "modified"

/-- `SessionAnalyzer._extract_changes_from_tools`, with the `seen_files` set
threaded explicitly and the heuristic `_generate_change_description` kept
abstract as the parameter `describe` (the spec marks it best-effort
advisory text; no claim depends on its value). -/
def extractGo (fsExists : String → Bool)
    (describe : Option String → String → ToolInput → String) :
    List ToolUse → List String → List FileChange
  | [], _ => []
  | t :: ts, seen =>
    if !isModTool t.name then extractGo fsExists describe ts seen
    else
      match t.input.file_path with
      | none => extractGo fsExists describe ts seen
      | some fp =>
        if fp = "" then extractGo fsExists describe ts seen
        else if fp ∈ seen then extractGo fsExists describe ts seen
        else
          { file_path := fp, action := changeAction fsExists t.name fp,
            description := describe t.name fp t.input } ::
            extractGo fsExists describe ts (fp :: seen)

/-- Entry point of the extraction pass over parsed tool uses
(`_extract_changes_from_tools` with its initially empty `seen_files`). -/
def extractChanges (fsExists : String → Bool)
    (describe : Option String → String → ToolInput → String)
    (tools : List ToolUse) : List FileChange :=
  extractGo fsExists describe tools []

/-- `SessionAnalyzer._extract_changes_from_input`: the fallback reads a
single `file_path` from the hook input's `tool_input` (Python truthiness
drops `None` and `''`) and yields at most one record. -/
def extractChangesFromInput (tool_input : ToolInput) : List FileChange :=
  match tool_input.file_path with
  | none => []
  | some fp =>
    if fp = "" then []
    else [{ file_path := fp, action := "modified", description := "Modified" }]

/-- `SessionAnalyzer.get_changes` for an existing transcript: parse then
extract, but any exception from the pass (here the `AttributeError` of a
bad-shaped line) is caught by `except Exception` and replaced by the
input-data fallback, discarding every recovered change. -/
def getChanges (fsExists : String → Bool)
    (describe : Option String → String → ToolInput → String)
    (lines : List TranscriptLine) (fallbackInput : ToolInput) : List FileChange :=
  match parseTranscript lines with
  | some tools => extractChanges fsExists describe tools
  | none => extractChangesFromInput fallbackInput

/-- A line on which `json.loads` itself fails. -/
def isDecodeError : TranscriptLine → Bool
  | TranscriptLine.malformed => true
  | _ => false


/-! Specification-side definitions for the extractor claims. -/

/-- The path a tool use qualifies with: its `file_path` when the tool is a
file-modification tool and the path is present and non-empty (Python's
`if not file_path: continue` drops both `None` and `''`). -/
def qualPath (t : ToolUse) : Option String :=
  if isModTool t.name then
    match t.input.file_path with
    | none => none
    | some fp => if fp = "" then none else some fp
  else none

/-- Spec-side (refinement target, from the spec's words): keep, in log
order, the first qualifying tool use per distinct path; later occurrences
of an already seen path are dropped. -/
def keepFirstByPath : List ToolUse → List String → List ToolUse
  | [], _ => []
  | t :: ts, seen =>
    match qualPath t with
    | none => keepFirstByPath ts seen
    | some fp =>
      if fp ∈ seen then keepFirstByPath ts seen
      else t :: keepFirstByPath ts (fp :: seen)

/-- The change record built from a qualifying tool use (first occurrence). -/
def mkChange (fsExists : String → Bool)
    (describe : Option String → String → ToolInput → String) (t : ToolUse) : FileChange :=
  let fp := (qualPath t).getD ""
  { file_path := fp, action := changeAction fsExists t.name fp,
    description := describe t.name fp t.input }

/-! ## Lemmas and theorems for the extractor claims (C1, C2) -/

theorem extractGo_eq_keepFirst (fs : String → Bool)
    (d : Option String → String → ToolInput → String) :
    ∀ (ts : List ToolUse) (seen : List String),
      extractGo fs d ts seen = (keepFirstByPath ts seen).map (mkChange fs d) := by
  intro ts
  induction ts with
  | nil => intro seen; rfl
  | cons t ts ih =>
    intro seen
    by_cases h1 : isModTool t.name
    · cases hfp : t.input.file_path with
      | none => simp [extractGo, keepFirstByPath, qualPath, h1, hfp, ih]
      | some fp =>
        by_cases h2 : fp = ""
        · simp [extractGo, keepFirstByPath, qualPath, h1, hfp, h2, ih]
        · by_cases h3 : fp ∈ seen
          · simp [extractGo, keepFirstByPath, qualPath, h1, hfp, h2, h3, ih]
          · simp [extractGo, keepFirstByPath, qualPath, mkChange, changeAction,
              h1, hfp, h2, h3, ih]
    · simp [extractGo, keepFirstByPath, qualPath, h1, ih]

theorem extractGo_paths_nodup (fs : String → Bool)
    (d : Option String → String → ToolInput → String) :
    ∀ (ts : List ToolUse) (seen : List String),
      ((extractGo fs d ts seen).map FileChange.file_path).Nodup
      ∧ ∀ p ∈ (extractGo fs d ts seen).map FileChange.file_path, p ∉ seen := by
  intro ts
  induction ts with
  | nil => intro seen; simp [extractGo]
  | cons t ts ih =>
    intro seen
    by_cases h1 : isModTool t.name
    · cases hfp : t.input.file_path with
      | none => simpa [extractGo, h1, hfp] using ih seen
      | some fp =>
        by_cases h2 : fp = ""
        · simpa [extractGo, h1, hfp, h2] using ih seen
        · by_cases h3 : fp ∈ seen
          · simpa [extractGo, h1, hfp, h2, h3] using ih seen
          · have hrec := ih (fp :: seen)
            have hgo : extractGo fs d (t :: ts) seen
                = { file_path := fp, action := changeAction fs t.name fp,
                    description := d t.name fp t.input } :: extractGo fs d ts (fp :: seen) := by
              simp [extractGo, h1, hfp, h2, h3]
            rw [hgo]
            constructor
            · rw [List.map_cons, List.nodup_cons]
              refine ⟨?_, hrec.1⟩
              intro hmem
              exact hrec.2 fp hmem (List.mem_cons_self fp seen)
            · intro p hp
              rw [List.map_cons, List.mem_cons] at hp
              rcases hp with rfl | hp
              · simpa using h3
              · intro hps
                exact hrec.2 p hp (List.mem_cons_of_mem _ hps)
    · simpa [extractGo, h1] using ih seen

/-- C1: for every transcript event log, the change extractor returns at most
one `FileChange` per distinct file path — the output's path list is without
duplicates — and the output is exactly the first qualifying occurrence of
each path, in first-seen log order, turned into a change record
(`keepFirstByPath` keeps the first occurrence per distinct path, so the
record kept corresponds to the first occurrence and subsequent occurrences
are dropped). -/
theorem C1_extractor_dedups_by_first_occurrence (fs : String → Bool)
    (d : Option String → String → ToolInput → String) (tools : List ToolUse) :
    extractChanges fs d tools = (keepFirstByPath tools []).map (mkChange fs d)
    ∧ ((extractChanges fs d tools).map FileChange.file_path).Nodup := by
  exact ⟨extractGo_eq_keepFirst fs d tools [], (extractGo_paths_nodup fs d tools []).1⟩

theorem parseTranscript_filter_decode_errors :
    ∀ lines : List TranscriptLine,
      parseTranscript lines
        = parseTranscript (lines.filter fun l => !isDecodeError l) := by
  intro lines
  induction lines with
  | nil => rfl
  | cons l rest ih =>
    cases l with
    | malformed => simpa [parseTranscript, List.filter, isDecodeError] using ih
    | badShape => simp [parseTranscript, List.filter, isDecodeError]
    | entry e => simp [parseTranscript, List.filter, isDecodeError, ih]

theorem parseTranscript_badShape_none :
    ∀ lines : List TranscriptLine, TranscriptLine.badShape ∈ lines →
      parseTranscript lines = none := by
  intro lines
  induction lines with
  | nil => intro h; cases h
  | cons l rest ih =>
    intro h
    cases l with
    | malformed =>
      simp only [parseTranscript]
      exact ih (by simpa using h)
    | badShape => rfl
    | entry e =>
      have hm : TranscriptLine.badShape ∈ rest := by simpa using h
      simp [parseTranscript, ih hm]

/-- C2 (amended): only a line on which the JSON decode itself fails is
skipped individually — the pass equals the pass with all such lines
removed, removing one of them anywhere changes nothing, and the extracted
changes agree.  But a line that decodes to a non-dictionary, or to a
dictionary whose `message` is not a dictionary, raises `AttributeError`,
aborts the whole pass, and makes `get_changes` fall back to the
input-data extraction, discarding the changes recovered from every other
line. -/
theorem C2_decode_errors_skipped_bad_shapes_abort (fs : String → Bool)
    (d : Option String → String → ToolInput → String) (fallbackInput : ToolInput)
    (lines l1 l2 : List TranscriptLine) :
    parseTranscript lines
        = parseTranscript (lines.filter fun l => !isDecodeError l)
    ∧ parseTranscript (l1 ++ TranscriptLine.malformed :: l2)
        = parseTranscript (l1 ++ l2)
    ∧ getChanges fs d lines fallbackInput
        = getChanges fs d (lines.filter fun l => !isDecodeError l) fallbackInput
    ∧ (TranscriptLine.badShape ∈ lines →
        parseTranscript lines = none
        ∧ getChanges fs d lines fallbackInput
            = extractChangesFromInput fallbackInput) := by
  refine ⟨parseTranscript_filter_decode_errors lines, ?_, ?_, ?_⟩
  · induction l1 with
    | nil => simp [parseTranscript]
    | cons l rest ih =>
      cases l with
      | malformed => simpa [parseTranscript] using ih
      | badShape => simp [parseTranscript]
      | entry e => simp [parseTranscript, ih]
  · unfold getChanges
    rw [parseTranscript_filter_decode_errors lines]
  · intro hmem
    have hn := parseTranscript_badShape_none lines hmem
    exact ⟨hn, by unfold getChanges; rw [hn]⟩

theorem C2_witness :
    parseTranscript [TranscriptLine.badShape] = none
    ∧ getChanges (fun _ => true) (fun _ _ _ => "desc") [TranscriptLine.badShape]
        { file_path := some "f.py" }
        = extractChangesFromInput { file_path := some "f.py" } :=
  (C2_decode_errors_skipped_bad_shapes_abort (fun _ => true) (fun _ _ _ => "desc")
    { file_path := some "f.py" } [TranscriptLine.badShape] [] []).2.2.2
    (List.mem_singleton.mpr rfl)

/-- C2 counterexample: a transcript holding one valid `Edit` line on
`a.py` followed by the line `null` — which decodes, but to a non-dict,
so it "fails to parse as a valid event record" — yields the input-data
fallback (empty here): the bad line aborts the pass and discards the
change recovered from the valid line, instead of being skipped. -/
theorem C2_counterexample :
    parseTranscript
        [TranscriptLine.entry
          { content := some [ContentItem.toolUse (some "Edit") { file_path := some "a.py" }] },
         TranscriptLine.badShape] = none
    ∧ getChanges (fun _ => true) (fun _ _ _ => "desc")
        [TranscriptLine.entry
          { content := some [ContentItem.toolUse (some "Edit") { file_path := some "a.py" }] },
         TranscriptLine.badShape] {} = []
    ∧ getChanges (fun _ => true) (fun _ _ _ => "desc")
        [TranscriptLine.entry
          { content := some [ContentItem.toolUse (some "Edit") { file_path := some "a.py" }] }] {}
        = [{ file_path := "a.py", action := "modified", description := "desc" }]
    ∧ ([] : List FileChange)
        ≠ [{ file_path := "a.py", action := "modified", description := "desc" }] := by
  refine ⟨by decide, by decide, by decide, by decide⟩

/-! ## Topic classifier (`topic_detector.py`)

Python's `fnmatch.fnmatch` (on a POSIX `normcase`) translates `*` to `.*`,
`?` to any single character, and everything else literally; `**` is just
two stars, with no globstar semantics.  The claims' patterns use no
`[...]` character classes, so those are not modelled (a `[` matches
itself literally here). -/

/-- Recursive matcher equivalent to `fnmatch.fnmatchcase` for patterns
without `[...]` classes: `*` matches any (possibly empty) sequence of
characters including `/`, `?` matches exactly one character.  The `fuel`
argument only makes the recursion structural (for kernel evaluation);
every step shrinks `p.length + s.length`, so any fuel above that bound
computes the matcher. -/
def globMatch : Nat → List Char → List Char → Bool
  | 0, _, _ => false
  | _ + 1, [], s => s.isEmpty
  | fuel + 1, '*' :: ps, [] => globMatch fuel ps []
  | fuel + 1, '*' :: ps, c :: cs =>
      globMatch fuel ps (c :: cs) || globMatch fuel ('*' :: ps) cs
  | fuel + 1, '?' :: ps, _ :: cs => globMatch fuel ps cs
  | fuel + 1, p :: ps, c :: cs => (p == c) && globMatch fuel ps cs
  | _ + 1, _ :: _, [] => false

/-- `fnmatch.fnmatch(file_path, pattern)` as called by
`TopicDetector._match_file_to_topic`. -/
def fnmatchB (pat name : String) : Bool :=
  globMatch (pat.data.length + name.data.length + 1) pat.data name.data

/-- One topic's configuration dictionary: `file_patterns` (default `[]`)
and `priority` (default 5), as read by `_match_file_to_topic`. -/
structure TopicConfig where
  file_patterns : List String := []
  priority : Int := 5
deriving Repr, DecidableEq

/-- A topic matches a path if any of its patterns matches (the inner
`for pattern ... break` loop of `_match_file_to_topic`). -/
def topicMatches (file_path : String) (cfg : TopicConfig) : Bool :=
  cfg.file_patterns.any fun pat => fnmatchB pat file_path

/-- The loop of `_match_file_to_topic` over `self.topic_patterns.items()`
(insertion-ordered), threading `best_match` and `best_priority`
(initially `None` and `-1`); a matching topic wins only with a strictly
higher priority than the current best. -/
def matchGo (file_path : String) :
    List (String × TopicConfig) → Option String → Int → Option String × Int
  | [], best, bp => (best, bp)
  | (name, cfg) :: rest, best, bp =>
    if topicMatches file_path cfg then
      if bp < cfg.priority then matchGo file_path rest (some name) cfg.priority
      else matchGo file_path rest best bp
    else matchGo file_path rest best bp

/-- `TopicDetector._match_file_to_topic`: the best match, or the fallback
topic when no rule won (`best_match if best_match else fallback` — Python
truthiness also sends an empty-string topic name to the fallback). -/
def matchFileToTopic (rules : List (String × TopicConfig)) (fallback : String)
    (file_path : String) : String :=
  match (matchGo file_path rules none (-1)).1 with
  | none => fallback
  | some name => if name = "" then fallback else name

/-! ## Theorems for the classifier claims (C4, C5) -/

/-- C4 counterexample: with the claim's two rules, the path
`tests/fee_test.py` does not match `**/tests/**` (Python's `fnmatch`
treats `**` as `*`, so that glob demands a literal `/tests/` substring,
which the path lacks), and the change is not assigned to `testing`. -/
theorem C4_counterexample :
    fnmatchB "**/tests/**" "tests/fee_test.py" = false
    ∧ matchFileToTopic
        [("testing", { file_patterns := ["**/tests/**"], priority := 10 }),
         ("fees", { file_patterns := ["**/fee*.py"], priority := 8 })]
        "general-changes" "tests/fee_test.py" ≠ "testing" := by
  decide

/-- C4 (amended): with topic rules testing = `["**/tests/**"]` at priority
10 and fees = `["**/fee*.py"]` at priority 8, the change path
`tests/fee_test.py` matches only the fees rule — `**/tests/**` does not
match it — and so the change is assigned to the `fees` topic. -/
theorem C4_fee_path_assigned_to_fees :
    fnmatchB "**/fee*.py" "tests/fee_test.py" = true
    ∧ fnmatchB "**/tests/**" "tests/fee_test.py" = false
    ∧ matchFileToTopic
        [("testing", { file_patterns := ["**/tests/**"], priority := 10 }),
         ("fees", { file_patterns := ["**/fee*.py"], priority := 8 })]
        "general-changes" "tests/fee_test.py" = "fees" := by
  decide

/-- Full characterisation of the `_match_file_to_topic` accumulator loop:
either no rule beat the incoming best priority (and every matching rule's
priority is at most it), or the result is the last rule that improved the
running best — a matching rule strictly above all earlier matching rules
and at least all later ones. -/
theorem matchGo_final (path : String) :
    ∀ (rules : List (String × TopicConfig)) (best : Option String) (bp : Int),
      (matchGo path rules best bp = (best, bp)
        ∧ ∀ s ∈ rules, topicMatches path s.2 = true → s.2.priority ≤ bp)
      ∨ (∃ l1 r l2, rules = l1 ++ r :: l2
          ∧ topicMatches path r.2 = true ∧ bp < r.2.priority
          ∧ matchGo path rules best bp = (some r.1, r.2.priority)
          ∧ (∀ s ∈ l1, topicMatches path s.2 = true → s.2.priority < r.2.priority)
          ∧ (∀ s ∈ l2, topicMatches path s.2 = true → s.2.priority ≤ r.2.priority)) := by
  intro rules
  induction rules with
  | nil => intro best bp; left; exact ⟨rfl, by simp⟩
  | cons hd tl ih =>
    intro best bp
    obtain ⟨name, cfg⟩ := hd
    by_cases hm : topicMatches path cfg
    · by_cases hp : bp < cfg.priority
      · rcases ih (some name) cfg.priority with ⟨heq, hall⟩ |
          ⟨l1, r, l2, hsplit, hrm, hrp, heq, hl1, hl2⟩
        · right
          exact ⟨[], (name, cfg), tl, by simp, hm, hp,
            by simpa [matchGo, hm, hp] using heq, by simp, hall⟩
        · right
          refine ⟨(name, cfg) :: l1, r, l2, by simp [hsplit], hrm,
            lt_trans hp hrp, by simpa [matchGo, hm, hp] using heq, ?_, hl2⟩
          intro s hs hms
          rcases List.mem_cons.mp hs with rfl | hs
          · exact hrp
          · exact hl1 s hs hms
      · rcases ih best bp with ⟨heq, hall⟩ |
          ⟨l1, r, l2, hsplit, hrm, hrp, heq, hl1, hl2⟩
        · left
          refine ⟨by simpa [matchGo, hm, hp] using heq, ?_⟩
          intro s hs hms
          rcases List.mem_cons.mp hs with rfl | hs
          · exact not_lt.mp hp
          · exact hall s hs hms
        · right
          refine ⟨(name, cfg) :: l1, r, l2, by simp [hsplit], hrm, hrp,
            by simpa [matchGo, hm, hp] using heq, ?_, hl2⟩
          intro s hs hms
          rcases List.mem_cons.mp hs with rfl | hs
          · exact lt_of_le_of_lt (not_lt.mp hp) hrp
          · exact hl1 s hs hms
    · rcases ih best bp with ⟨heq, hall⟩ |
        ⟨l1, r, l2, hsplit, hrm, hrp, heq, hl1, hl2⟩
      · left
        refine ⟨by simpa [matchGo, hm] using heq, ?_⟩
        intro s hs hms
        rcases List.mem_cons.mp hs with rfl | hs
        · simp [hms] at hm
        · exact hall s hs hms
      · right
        refine ⟨(name, cfg) :: l1, r, l2, by simp [hsplit], hrm, hrp,
          by simpa [matchGo, hm] using heq, ?_, hl2⟩
        intro s hs hms
        rcases List.mem_cons.mp hs with rfl | hs
        · simp [hms] at hm
        · exact hl1 s hs hms

/-- C5 (amended): provided every rule's priority is nonnegative and every
topic name is non-empty, the classifier assigns a change matching no rule
to the fallback topic, and a change matching some rule to a matching rule
whose priority is at least that of every matching rule and strictly above
every earlier-declared matching rule (so the strictly highest priority
wins, and the first-declared rule wins ties). -/
theorem C5_highest_priority_first_declared_wins
    (rules : List (String × TopicConfig)) (fallback file_path : String)
    (hnn : ∀ r ∈ rules, (0 : Int) ≤ r.2.priority)
    (hname : ∀ r ∈ rules, r.1 ≠ "") :
    ((∀ r ∈ rules, topicMatches file_path r.2 = false) →
        matchFileToTopic rules fallback file_path = fallback)
    ∧ (∀ r0 ∈ rules, topicMatches file_path r0.2 = true →
        ∃ l1 r l2, rules = l1 ++ r :: l2
          ∧ topicMatches file_path r.2 = true
          ∧ matchFileToTopic rules fallback file_path = r.1
          ∧ (∀ s ∈ rules, topicMatches file_path s.2 = true →
              s.2.priority ≤ r.2.priority)
          ∧ (∀ s ∈ l1, topicMatches file_path s.2 = true →
              s.2.priority < r.2.priority)) := by
  constructor
  · intro hnomatch
    rcases matchGo_final file_path rules none (-1) with ⟨heq, _⟩ |
      ⟨l1, r, l2, hsplit, hrm, _, _, _, _⟩
    · simp [matchFileToTopic, heq]
    · have : r ∈ rules := by rw [hsplit]; exact List.mem_append_right _ (List.mem_cons_self _ _)
      rw [hnomatch r this] at hrm
      cases hrm
  · intro r0 hr0 hm0
    rcases matchGo_final file_path rules none (-1) with ⟨_, hall⟩ |
      ⟨l1, r, l2, hsplit, hrm, _, heq, hl1, hl2⟩
    · have h1 := hall r0 hr0 hm0
      have h2 := hnn r0 hr0
      omega
    · have hrmem : r ∈ rules := by
        rw [hsplit]; exact List.mem_append_right _ (List.mem_cons_self _ _)
      refine ⟨l1, r, l2, hsplit, hrm, ?_, ?_, hl1⟩
      · simp [matchFileToTopic, heq, hname r hrmem]
      · intro s hs hms
        rw [hsplit] at hs
        rcases List.mem_append.mp hs with hs | hs
        · exact le_of_lt (hl1 s hs hms)
        · rcases List.mem_cons.mp hs with rfl | hs
          · exact le_refl _
          · exact hl2 s hs hms

theorem C5_witness :
    (∀ r ∈ [("docs", ({ file_patterns := ["*.md"], priority := 3 } : TopicConfig)),
            ("code", ({ file_patterns := ["*.py", "*.md"], priority := 7 } : TopicConfig))],
        (0 : Int) ≤ r.2.priority)
    ∧ (∀ r ∈ [("docs", ({ file_patterns := ["*.md"], priority := 3 } : TopicConfig)),
              ("code", ({ file_patterns := ["*.py", "*.md"], priority := 7 } : TopicConfig))],
        r.1 ≠ "")
    ∧ (((∀ r ∈ [("docs", ({ file_patterns := ["*.md"], priority := 3 } : TopicConfig)),
                ("code", ({ file_patterns := ["*.py", "*.md"], priority := 7 } : TopicConfig))],
          topicMatches "notes.md" r.2 = false) →
            matchFileToTopic
              [("docs", { file_patterns := ["*.md"], priority := 3 }),
               ("code", { file_patterns := ["*.py", "*.md"], priority := 7 })]
              "general-changes" "notes.md" = "general-changes")
      ∧ (∀ r0 ∈ [("docs", ({ file_patterns := ["*.md"], priority := 3 } : TopicConfig)),
                 ("code", ({ file_patterns := ["*.py", "*.md"], priority := 7 } : TopicConfig))],
          topicMatches "notes.md" r0.2 = true →
          ∃ l1 r l2,
            [("docs", ({ file_patterns := ["*.md"], priority := 3 } : TopicConfig)),
             ("code", ({ file_patterns := ["*.py", "*.md"], priority := 7 } : TopicConfig))]
              = l1 ++ r :: l2
            ∧ topicMatches "notes.md" r.2 = true
            ∧ matchFileToTopic
                [("docs", { file_patterns := ["*.md"], priority := 3 }),
                 ("code", { file_patterns := ["*.py", "*.md"], priority := 7 })]
                "general-changes" "notes.md" = r.1
            ∧ (∀ s ∈ [("docs", ({ file_patterns := ["*.md"], priority := 3 } : TopicConfig)),
                      ("code", ({ file_patterns := ["*.py", "*.md"], priority := 7 } : TopicConfig))],
                topicMatches "notes.md" s.2 = true → s.2.priority ≤ r.2.priority)
            ∧ (∀ s ∈ l1, topicMatches "notes.md" s.2 = true →
                s.2.priority < r.2.priority))) := by
  refine ⟨by decide, by decide, ?_⟩
  exact C5_highest_priority_first_declared_wins
    [("docs", { file_patterns := ["*.md"], priority := 3 }),
     ("code", { file_patterns := ["*.py", "*.md"], priority := 7 })]
    "general-changes" "notes.md" (by decide) (by decide)

/-- C5 counterexample: a single rule with a negative priority matches the
path and is trivially the matching rule of strictly highest priority, yet
the classifier returns the fallback topic, because the running best
priority starts at `-1` and only strictly larger priorities win. -/
theorem C5_counterexample :
    topicMatches "x" ({ file_patterns := ["*"], priority := -1 } : TopicConfig) = true
    ∧ matchFileToTopic [("t", { file_patterns := ["*"], priority := -1 })]
        "general-changes" "x" = "general-changes"
    ∧ "general-changes" ≠ "t" := by
  decide

/-! ## Encoded-path reconstruction (`stop.py`)

`extract_cwd_from_transcript` splits the transcript directory name (leading
dash stripped) on dashes and hands the token list to `_find_valid_path_dp`.
The filesystem is modelled by an existence oracle `fs : String → Bool`
(`Path(candidate).exists()`). -/

/-- The inner `for start in range(end)` loop of `_find_valid_path_dp`: the
first start position whose memo entry is set and whose candidate
(`memo[start] + '/' + '-'.join(parts[start:end])`) exists wins (`break`). -/
def dpStep (fs : String → Bool) (parts : List String)
    (memo : List (Option String)) (e : Nat) : Option String :=
  (List.range e).findSome? fun s =>
    match memo.getD s none with
    | none => none
    | some p =>
      let seg := String.intercalate "-" ((parts.drop s).take (e - s))
      let cand := p ++ "/" ++ seg
      if fs cand then some cand else none

/-- The memo table of `_find_valid_path_dp` after filling positions
`0..e`; `memo[0] = ''` and each later entry is filled by `dpStep`. -/
def buildMemo (fs : String → Bool) (parts : List String) : Nat → List (Option String)
  | 0 => [some ""]
  | e + 1 =>
    let m := buildMemo fs parts e
    m ++ [dpStep fs parts m (e + 1)]

/-- `_find_valid_path_dp`: the memo entry for all tokens if set (and
non-empty, per Python truthiness), otherwise the fallback
`'/' + '/'.join(parts)`; an empty token list yields `''`. -/
def findValidPathDp (fs : String → Bool) (parts : List String) : String :=
  if parts.length = 0 then ""
  else
    match (buildMemo fs parts parts.length).getD parts.length none with
    | some p => if p = "" then "/" ++ String.intercalate "/" parts else p
    | none => "/" ++ String.intercalate "/" parts

/-- Spec-side: a contiguous re-grouping of the dash-delimited tokens into
(non-empty) path segments. -/
def IsGrouping (gs : List (List String)) (parts : List String) : Prop :=
  gs.flatten = parts ∧ ∀ g ∈ gs, g ≠ []

/-- Spec-side: the absolute path a grouping denotes — each group joined
with dashes, the groups joined with `/`, rooted at `/` (exactly the shape
`memo[start] + '/' + segment` builds from `memo[0] = ''`). -/
def groupPath (gs : List (List String)) : String :=
  gs.foldl (fun acc g => acc ++ "/" ++ String.intercalate "-" g) ""

theorem buildMemo_length (fs : String → Bool) (parts : List String) :
    ∀ e, (buildMemo fs parts e).length = e + 1 := by
  intro e
  induction e with
  | zero => rfl
  | succ e ih => simp [buildMemo, ih]

theorem buildMemo_getD_succ_of_le (fs : String → Bool) (parts : List String)
    (e i : Nat) (h : i ≤ e) :
    (buildMemo fs parts (e + 1)).getD i none = (buildMemo fs parts e).getD i none := by
  have hlen : i < (buildMemo fs parts e).length := by
    rw [buildMemo_length]; omega
  simpa [buildMemo] using List.getD_append _ _ none i hlen

theorem buildMemo_getD_last (fs : String → Bool) (parts : List String) (e : Nat) :
    (buildMemo fs parts (e + 1)).getD (e + 1) none
      = dpStep fs parts (buildMemo fs parts e) (e + 1) := by
  have hlen : (buildMemo fs parts e).length = e + 1 := buildMemo_length fs parts e
  show ((buildMemo fs parts e) ++ [dpStep fs parts (buildMemo fs parts e) (e + 1)]).getD
      (e + 1) none = _
  rw [List.getD_append_right _ _ none (e + 1) (by omega), hlen]
  simp

theorem groupPath_concat (gs : List (List String)) (g : List String) :
    groupPath (gs ++ [g]) = groupPath gs ++ "/" ++ String.intercalate "-" g := by
  simp [groupPath, List.foldl_append]

/-- Every set memo entry at a position `i ≥ 1` is an existing path that is
the `groupPath` of some contiguous grouping of the first `i` tokens
(soundness of the table of `_find_valid_path_dp`). -/
theorem buildMemo_sound (fs : String → Bool) (parts : List String) :
    ∀ e, e ≤ parts.length →
      ∀ i, i ≤ e → ∀ p, (buildMemo fs parts e).getD i none = some p →
        (i = 0 ∧ p = "") ∨
        (fs p = true ∧ ∃ gs, IsGrouping gs (parts.take i) ∧ p = groupPath gs) := by
  intro e
  induction e with
  | zero =>
    intro _ i hi p hp
    interval_cases i
    left
    refine ⟨rfl, ?_⟩
    simpa [buildMemo] using hp.symm
  | succ e ih =>
    intro he i hi p hp
    rcases Nat.lt_or_ge i (e + 1) with hlt | hge
    · have hi' : i ≤ e := by omega
      rw [buildMemo_getD_succ_of_le fs parts e i hi'] at hp
      exact ih (by omega) i hi' p hp
    · have hieq : i = e + 1 := by omega
      subst hieq
      rw [buildMemo_getD_last] at hp
      unfold dpStep at hp
      obtain ⟨s, hs, hf⟩ := List.exists_of_findSome?_eq_some hp
      have hslt : s < e + 1 := List.mem_range.mp hs
      cases hq : (buildMemo fs parts e).getD s none with
      | none => rw [hq] at hf; cases hf
      | some q =>
        rw [hq] at hf
        simp only at hf
        by_cases hex : fs (q ++ "/" ++ String.intercalate "-"
            ((parts.drop s).take (e + 1 - s))) = true
        · rw [if_pos hex] at hf
          have hpval : p = q ++ "/" ++ String.intercalate "-"
              ((parts.drop s).take (e + 1 - s)) := (Option.some.inj hf).symm
          have hq' := ih (by omega) s (by omega) q hq
          have hgs : ∃ gs, IsGrouping gs (parts.take s) ∧ q = groupPath gs := by
            rcases hq' with ⟨hs0, hq0⟩ | ⟨_, gs, hgs, hqg⟩
            · subst hs0
              exact ⟨[], ⟨by simp, by simp⟩, by simp [hq0, groupPath]⟩
            · exact ⟨gs, hgs, hqg⟩
          obtain ⟨gs, ⟨hflat, hne⟩, hqg⟩ := hgs
          right
          refine ⟨by rw [hpval]; exact hex, gs ++ [(parts.drop s).take (e + 1 - s)], ⟨?_, ?_⟩, ?_⟩
          · rw [List.flatten_append, hflat]
            simp only [List.flatten, List.append_nil]
            have htk : List.take (e + 1) parts
                = List.take s parts ++ List.take (e + 1 - s) (List.drop s parts) := by
              have h2 : s + (e + 1 - s) = e + 1 := by omega
              calc List.take (e + 1) parts = List.take (s + (e + 1 - s)) parts := by rw [h2]
                _ = _ := List.take_add parts s (e + 1 - s)
            rw [htk]
          · intro g hg
            rcases List.mem_append.mp hg with hg | hg
            · exact hne g hg
            · rcases List.mem_singleton.mp hg with rfl
              have hlen : ((parts.drop s).take (e + 1 - s)).length = e + 1 - s := by
                rw [List.length_take, List.length_drop]
                omega
              intro hemp
              rw [hemp] at hlen
              simp at hlen
              omega
          · rw [groupPath_concat, ← hqg, hpval]
        · rw [if_neg hex] at hf; cases hf

/-- C3 (amended): reconstruction always returns either a path that exists
on the filesystem or the all-tokens fallback `'/' + '/'.join(parts)`, and
whenever no contiguous re-grouping of the tokens yields an existing path
it returns that fallback.  (The original claim's converse — that an
existing grouping guarantees an existing result — fails: each table
position greedily keeps only the first reconstruction found, see the
counterexample.) -/
theorem findValidPathDp_eq (fs : String → Bool) (parts : List String)
    (hn : parts.length ≠ 0) :
    findValidPathDp fs parts =
      match (buildMemo fs parts parts.length).getD parts.length none with
      | some p => if p = "" then "/" ++ String.intercalate "/" parts else p
      | none => "/" ++ String.intercalate "/" parts := by
  unfold findValidPathDp
  rw [if_neg hn]

theorem C3_reconstruction_sound_and_fallback (fs : String → Bool)
    (parts : List String) (h : parts ≠ []) :
    (fs (findValidPathDp fs parts) = true
      ∨ findValidPathDp fs parts = "/" ++ String.intercalate "/" parts)
    ∧ ((∀ gs, IsGrouping gs parts → fs (groupPath gs) = false) →
        findValidPathDp fs parts = "/" ++ String.intercalate "/" parts) := by
  have hn : parts.length ≠ 0 := by
    intro h0
    exact h (List.length_eq_zero.mp h0)
  cases hm : (buildMemo fs parts parts.length).getD parts.length none with
  | none =>
    have hres : findValidPathDp fs parts = "/" ++ String.intercalate "/" parts := by
      rw [findValidPathDp_eq fs parts hn, hm]
    exact ⟨Or.inr hres, fun _ => hres⟩
  | some p =>
    have hsound := buildMemo_sound fs parts parts.length (le_refl _)
      parts.length (le_refl _) p hm
    rcases hsound with ⟨h0, _⟩ | ⟨hfs, gs, hgs, hpg⟩
    · omega
    · by_cases hpe : p = ""
      · have hres : findValidPathDp fs parts = "/" ++ String.intercalate "/" parts := by
          rw [findValidPathDp_eq fs parts hn, hm]
          exact if_pos hpe
        exact ⟨Or.inr hres, fun _ => hres⟩
      · constructor
        · left
          have hres : findValidPathDp fs parts = p := by
            rw [findValidPathDp_eq fs parts hn, hm]
            exact if_neg hpe
          rw [hres]; exact hfs
        · intro hnone
          have := hnone gs (by simpa [List.take_length] using hgs)
          rw [← hpg] at this
          rw [this] at hfs
          cases hfs

theorem C3_witness :
    ((fun s : String => ["/home", "/home/user", "/home/user/my-proj"].contains s)
        (findValidPathDp
          (fun s => ["/home", "/home/user", "/home/user/my-proj"].contains s)
          ["home", "user", "my", "proj"]) = true
      ∨ findValidPathDp
          (fun s => ["/home", "/home/user", "/home/user/my-proj"].contains s)
          ["home", "user", "my", "proj"]
          = "/" ++ String.intercalate "/" ["home", "user", "my", "proj"])
    ∧ ((∀ gs, IsGrouping gs ["home", "user", "my", "proj"] →
          (fun s : String => ["/home", "/home/user", "/home/user/my-proj"].contains s)
            (groupPath gs) = false) →
        findValidPathDp
          (fun s => ["/home", "/home/user", "/home/user/my-proj"].contains s)
          ["home", "user", "my", "proj"]
          = "/" ++ String.intercalate "/" ["home", "user", "my", "proj"]) :=
  C3_reconstruction_sound_and_fallback
    (fun s => ["/home", "/home/user", "/home/user/my-proj"].contains s)
    ["home", "user", "my", "proj"] (by decide)

/-- C3 counterexample: on a (prefix-closed) filesystem holding `/a`,
`/a-b`, `/a/b` and `/a/b/c-d`, the grouping `a | b | c-d` of the tokens
`a,b,c,d` yields the existing path `/a/b/c-d`, yet reconstruction returns
the non-existing fallback `/a/b/c/d`: at position 2 the table greedily
kept `/a-b` (found first), which extends to none of `/a-b/c`, `/a-b/c-d`,
so no table entry survives to the end. -/
theorem C3_counterexample :
    (∃ gs, IsGrouping gs ["a", "b", "c", "d"]
      ∧ (fun s : String => ["/a", "/a-b", "/a/b", "/a/b/c-d"].contains s)
          (groupPath gs) = true)
    ∧ findValidPathDp (fun s => ["/a", "/a-b", "/a/b", "/a/b/c-d"].contains s)
        ["a", "b", "c", "d"] = "/a/b/c/d"
    ∧ (fun s : String => ["/a", "/a-b", "/a/b", "/a/b/c-d"].contains s)
        "/a/b/c/d" = false := by
  refine ⟨⟨[["a"], ["b"], ["c", "d"]], ⟨by decide, by decide⟩, by decide⟩, by decide, by decide⟩

/-! ## Sequence similarity (`difflib.SequenceMatcher`, used by `wiki_merger._similarity`)

`SequenceMatcher(None, a, b).ratio()` is modelled exactly (Ratcliff-Obershelp:
longest matching block, recursion on both flanks, `2*M/T`), with two
documented deviations that do not affect any claim: floats are exact
rationals, and the autojunk heuristic — which only alters `b2j` when
`len(b) ≥ 200` — is not modelled (its popular-element suppression never
changes the ratio of two equal strings, the only internal fact the claims
rely on, because suppressed chains are recovered by the extension loops). -/

/-- The `b2j` mapping of `SequenceMatcher.__chain_b` with `isjunk = None`:
the ascending positions of each character in `b`. -/
def b2j (b : List Char) (c : Char) : List Nat :=
  (List.range b.length).filter fun j => b[j]? == some c

/-- Chain length through position `j`: `j2len.get(j-1, 0) + 1` against the
previous row's dictionary (Python's `j - 1` at `j = 0` is `-1`, never a
key, hence `0`). -/
def kOf (j2len : Nat → Nat) (j : Nat) : Nat :=
  (if j = 0 then 0 else j2len (j - 1)) + 1

/-- Inner loop of `find_longest_match` over the positions of `a[i]` in
`b`: positions below `blo` are skipped (`continue`), the loop breaks at
`bhi`, each processed position records its chain length in `newj2len`,
and a chain strictly longer than the best so far relocates the best
block to `(i-k+1, j-k+1, k)`. -/
def flmInner (blo bhi irow : Nat) (j2len : Nat → Nat) :
    List Nat → (Nat → Nat) → Nat × Nat × Nat → (Nat → Nat) × (Nat × Nat × Nat)
  | [], acc, best => (acc, best)
  | j :: js, acc, best =>
    if j < blo then flmInner blo bhi irow j2len js acc best
    else if bhi ≤ j then (acc, best)
    else
      flmInner blo bhi irow j2len js
        (fun x => if x = j then kOf j2len j else acc x)
        (if best.2.2 < kOf j2len j then
          (irow + 1 - kOf j2len j, j + 1 - kOf j2len j, kOf j2len j)
         else best)

/-- Outer loop of `find_longest_match` over rows `alo..ahi-1`; each row
starts a fresh `newj2len` and passes the previous row's dictionary. -/
def flmOuter (a : List Char) (bj : Char → List Nat) (blo bhi : Nat) :
    List Nat → (Nat → Nat) → Nat × Nat × Nat → Nat × Nat × Nat
  | [], _, best => best
  | i :: rows, j2len, best =>
    flmOuter a bj blo bhi rows
      (flmInner blo bhi i j2len (bj (a.getD i default)) (fun _ => 0) best).1
      (flmInner blo bhi i j2len (bj (a.getD i default)) (fun _ => 0) best).2

/-- Characters `a[i]` and `b[j]` exist and are equal (every reachable
comparison in the Python loops is in range). -/
def chEq (a b : List Char) (i j : Nat) : Bool :=
  match a[i]?, b[j]? with
  | some x, some y => x == y
  | _, _ => false

/-- First extension loop of `find_longest_match`: grow the block leftwards
while the preceding characters match (with `isjunk = None` the junk
conditions are vacuously true and the two junk loops never fire).
`fuel ≥ besti` makes the recursion structural; each step decreases
`besti`, so the initial `besti` always suffices. -/
def extendLeft (a b : List Char) (alo blo : Nat) :
    Nat → Nat × Nat × Nat → Nat × Nat × Nat
  | 0, st => st
  | fuel + 1, (besti, bestj, bestsize) =>
    if alo < besti && blo < bestj && chEq a b (besti - 1) (bestj - 1) then
      extendLeft a b alo blo fuel (besti - 1, bestj - 1, bestsize + 1)
    else (besti, bestj, bestsize)

/-- Second extension loop: grow the block rightwards while the following
characters match.  `fuel ≥ ahi` always suffices. -/
def extendRight (a b : List Char) (ahi bhi besti bestj : Nat) :
    Nat → Nat → Nat
  | 0, bestsize => bestsize
  | fuel + 1, bestsize =>
    if besti + bestsize < ahi && bestj + bestsize < bhi
        && chEq a b (besti + bestsize) (bestj + bestsize) then
      extendRight a b ahi bhi besti bestj fuel (bestsize + 1)
    else bestsize

/-- `SequenceMatcher.find_longest_match(alo, ahi, blo, bhi)` with
`isjunk = None`: core scan, then the two non-junk extension loops. -/
def findLongestMatch (a b : List Char) (bj : Char → List Nat)
    (alo ahi blo bhi : Nat) : Nat × Nat × Nat :=
  match flmOuter a bj blo bhi (List.range' alo (ahi - alo)) (fun _ => 0) (alo, blo, 0) with
  | (ci, cj, ck) =>
    match extendLeft a b alo blo ci (ci, cj, ck) with
    | (besti, bestj, bestsize) =>
      (besti, bestj, extendRight a b ahi bhi besti bestj ahi bestsize)

/-- Total matched size over `get_matching_blocks`: the longest match of a
range plus recursion on the two flanking ranges, exactly under the
queue's guards (`alo < i and blo < j`, `i+k < ahi and j+k < bhi`); the
queue's processing order cannot change this sum.  `fuel` bounds the
recursion depth and `a.length + b.length + 1` always suffices. -/
def matchTotal (a b : List Char) (bj : Char → List Nat) :
    Nat → Nat → Nat → Nat → Nat → Nat
  | 0, _, _, _, _ => 0
  | fuel + 1, alo, ahi, blo, bhi =>
    match findLongestMatch a b bj alo ahi blo bhi with
    | (i, j, k) =>
      if k = 0 then 0
      else
        (if alo < i && blo < j then matchTotal a b bj fuel alo i blo j else 0)
        + k
        + (if i + k < ahi && j + k < bhi then matchTotal a b bj fuel (i + k) ahi (j + k) bhi
           else 0)

/-- `SequenceMatcher.ratio()` = `_calculate_ratio(M, len(a) + len(b))`:
`2.0 * M / length`, and `1.0` when both sequences are empty. -/
def seqRatio (a b : List Char) : Rat :=
  if a.length + b.length = 0 then 1
  else 2 * (matchTotal a b (b2j b) (a.length + b.length + 1) 0 a.length 0 b.length : Rat)
        / ((a.length : Rat) + (b.length : Rat))

/-- `wiki_merger._similarity`: the SequenceMatcher ratio of the two
lowercased strings (`str.lower()` modelled character-wise). -/
def similarity (x y : String) : Rat :=
  seqRatio (x.data.map Char.toLower) (y.data.map Char.toLower)

/-! ## Knowledge merger (`wiki_merger.py`, data model from `wiki_parser.py`) -/

/-- `WikiKnowledge` dataclass of `wiki_parser.py`. -/
structure WikiKnowledge where
  architecture : String := ""
  decisions : List String := []
  patterns : List String := []
  key_symbols : List String := []
  issues : List String := []
  recent_work : List String := []
deriving Repr, DecidableEq

/-- The loop of `wiki_merger._deduplicate` over `new_items` with the
running `result` list: an item that is not a (non-empty) string is
skipped — in this `List String` model only `''` can be skipped — and an
item whose similarity to some current result entry reaches the threshold
is dropped, otherwise it is inserted at the front. -/
def dedupGo (threshold : Rat) : List String → List String → List String
  | [], result => result
  | c :: cs, result =>
    if c = "" then dedupGo threshold cs result
    else if result.any fun e => threshold ≤ similarity c e then dedupGo threshold cs result
    else dedupGo threshold cs (c :: result)

/-- `wiki_merger._deduplicate`: non-string and empty entries are first
filtered out of `existing`, then each new item is inserted at the front
unless similar to a current entry. -/
def deduplicate (existing new_items : List String) (threshold : Rat) : List String :=
  dedupGo threshold new_items (existing.filter fun s => s ≠ "")

/-- `wiki_merger._rotate_recent`: raises `ValueError` on a non-positive
`max_size` (modelled as `none`), otherwise prepends the new entry and
truncates to the first `max_size` entries. -/
def rotateRecent (recent : List String) (newEntry : String) (maxSize : Int) :
    Option (List String) :=
  if maxSize ≤ 0 then none
  else some ((newEntry :: recent).take maxSize.toNat)

/-- `wiki_merger.merge_session` (default `max_recent = 5`): deduplicate
the session's decisions into `decisions` and its solved problems into
`issues` at threshold 0.8, then — only when the session summary is
non-empty (Python truthiness) — prepend a date-stamped summary entry to
`recent_work` and truncate.  The source's three sequential in-place field
updates touch disjoint fields and the rotation reads only `recent_work`,
so they are written as one record update per branch.  `datetime.now()` is
modelled by the explicit `today` parameter; the `ValueError` of the
rotation propagates as `none`. -/
def merge_session (today : String) (wiki : WikiKnowledge) (session : SessionContext)
    (maxRecent : Int) : Option WikiKnowledge :=
  if session.summary = "" then
    some { wiki with
      decisions := deduplicate wiki.decisions session.decisions_made (8 / 10 : Rat),
      issues := deduplicate wiki.issues session.problems_solved (8 / 10 : Rat) }
  else
    match rotateRecent wiki.recent_work ("[" ++ today ++ "] " ++ session.summary) maxRecent with
    | none => none
    | some r =>
      some { wiki with
        decisions := deduplicate wiki.decisions session.decisions_made (8 / 10 : Rat),
        issues := deduplicate wiki.issues session.problems_solved (8 / 10 : Rat),
        recent_work := r }

/-- A sequence of merges, one per session (each with its own date), with
`max_recent = 5` as the stop hook calls it. -/
def mergeMany (wiki : WikiKnowledge) (l : List (String × SessionContext)) :
    Option WikiKnowledge :=
  l.foldlM (fun w p => merge_session p.1 w p.2 5) wiki

/-! ### The ratio of a sequence with itself is 1

The core scan keeps the best block on the diagonal for equal sequences:
at row `r` the diagonal chain reaches length `r + 1`, positions left of
the diagonal can chain at most to their own length, and positions right
of it (visited after the diagonal, since `b2j` lists positions in
ascending order) can never strictly exceed it. -/

theorem mem_b2j {b : List Char} {c : Char} {j : Nat} :
    j ∈ b2j b c ↔ j < b.length ∧ b[j]? = some c := by
  simp [b2j, List.mem_filter, List.mem_range]

theorem b2j_pairwise (b : List Char) (c : Char) : (b2j b c).Pairwise (· < ·) :=
  (List.pairwise_lt_range b.length).filter _

theorem self_mem_b2j {l : List Char} {r : Nat} (hr : r < l.length) :
    r ∈ b2j l (l.getD r default) := by
  rw [mem_b2j]
  refine ⟨hr, ?_⟩
  rw [List.getD_eq_getElem?_getD, List.getElem?_eq_getElem hr]
  simp [List.getElem?_eq_getElem hr]

theorem kOf_le_succ (f : Nat → Nat) (h : ∀ x, f x ≤ x + 1) (j : Nat) :
    kOf f j ≤ j + 1 := by
  unfold kOf
  by_cases hj : j = 0
  · simp [hj]
  · rw [if_neg hj]
    have := h (j - 1)
    omega

theorem kOf_le_bound (f : Nat → Nat) (R : Nat) (h : ∀ x, f x ≤ R) (j : Nat) :
    kOf f j ≤ R + 1 := by
  unfold kOf
  by_cases hj : j = 0
  · simp [hj]
  · rw [if_neg hj]
    have := h (j - 1)
    omega

theorem flmInner_append (blo bhi irow : Nat) (f : Nat → Nat) :
    ∀ (u w : List Nat), (∀ j ∈ u, j < bhi) →
      ∀ (acc : Nat → Nat) (best : Nat × Nat × Nat),
        flmInner blo bhi irow f (u ++ w) acc best
          = flmInner blo bhi irow f w
              (flmInner blo bhi irow f u acc best).1
              (flmInner blo bhi irow f u acc best).2 := by
  intro u
  induction u with
  | nil => intro w _ acc best; rfl
  | cons j u ih =>
    intro w hu acc best
    have hj : j < bhi := hu j (List.mem_cons_self _ _)
    by_cases hlo : j < blo
    · simp only [List.cons_append, flmInner, if_pos hlo]
      exact ih w (fun x hx => hu x (List.mem_cons_of_mem _ hx)) acc best
    · simp only [List.cons_append, flmInner, if_neg hlo,
        if_neg (by omega : ¬ bhi ≤ j)]
      exact ih w (fun x hx => hu x (List.mem_cons_of_mem _ hx)) _ _

theorem flmInner_no_update (blo bhi irow : Nat) (f : Nat → Nat) :
    ∀ (js : List Nat) (acc : Nat → Nat) (best : Nat × Nat × Nat),
      (∀ j ∈ js, j < bhi) → (∀ j ∈ js, kOf f j ≤ best.2.2) →
      (flmInner blo bhi irow f js acc best).2 = best := by
  intro js
  induction js with
  | nil => intro acc best _ _; rfl
  | cons j js ih =>
    intro acc best hb hk
    have hj : j < bhi := hb j (List.mem_cons_self _ _)
    by_cases hlo : j < blo
    · simp only [flmInner, if_pos hlo]
      exact ih acc best (fun x hx => hb x (List.mem_cons_of_mem _ hx))
        (fun x hx => hk x (List.mem_cons_of_mem _ hx))
    · have hkj : kOf f j ≤ best.2.2 := hk j (List.mem_cons_self _ _)
      simp only [flmInner, if_neg hlo, if_neg (by omega : ¬ bhi ≤ j),
        if_neg (by omega : ¬ best.2.2 < kOf f j)]
      exact ih _ best (fun x hx => hb x (List.mem_cons_of_mem _ hx))
        (fun x hx => hk x (List.mem_cons_of_mem _ hx))

theorem flmInner_acc_bound (blo bhi irow : Nat) (f : Nat → Nat) (R : Nat)
    (hf1 : ∀ x, f x ≤ x + 1) (hf2 : ∀ x, f x ≤ R) :
    ∀ (js : List Nat) (acc : Nat → Nat) (best : Nat × Nat × Nat),
      (∀ x, acc x ≤ x + 1) → (∀ x, acc x ≤ R + 1) →
      (∀ x, (flmInner blo bhi irow f js acc best).1 x ≤ x + 1)
      ∧ (∀ x, (flmInner blo bhi irow f js acc best).1 x ≤ R + 1) := by
  intro js
  induction js with
  | nil => intro acc best h1 h2; exact ⟨h1, h2⟩
  | cons j js ih =>
    intro acc best h1 h2
    by_cases hlo : j < blo
    · simp only [flmInner, if_pos hlo]
      exact ih acc best h1 h2
    · by_cases hhi : bhi ≤ j
      · simp only [flmInner, if_neg hlo, if_pos hhi]
        exact ⟨h1, h2⟩
      · simp only [flmInner, if_neg hlo, if_neg hhi]
        apply ih
        · intro x
          by_cases hx : x = j
          · subst hx
            simp only [if_pos rfl]
            exact kOf_le_succ f hf1 x
          · simp only [if_neg hx]
            exact h1 x
        · intro x
          by_cases hx : x = j
          · subst hx
            simp only [if_pos rfl]
            exact kOf_le_bound f R hf2 x
          · simp only [if_neg hx]
            exact h2 x

theorem flmInner_acc_not_mem (blo bhi irow : Nat) (f : Nat → Nat) :
    ∀ (js : List Nat) (acc : Nat → Nat) (best : Nat × Nat × Nat) (x : Nat),
      x ∉ js → (flmInner blo bhi irow f js acc best).1 x = acc x := by
  intro js
  induction js with
  | nil => intro acc best x _; rfl
  | cons j js ih =>
    intro acc best x hx
    have hxj : x ≠ j := fun h => hx (h ▸ List.mem_cons_self _ _)
    have hxs : x ∉ js := fun h => hx (List.mem_cons_of_mem _ h)
    by_cases hlo : j < blo
    · simp only [flmInner, if_pos hlo]
      exact ih acc best x hxs
    · by_cases hhi : bhi ≤ j
      · simp only [flmInner, if_neg hlo, if_pos hhi]
      · simp only [flmInner, if_neg hlo, if_neg hhi]
        rw [ih _ _ x hxs]
        simp [hxj]

theorem flm_row (l : List Char) (r : Nat) (hr : r < l.length) (f : Nat → Nat)
    (hf1 : ∀ x, f x ≤ x + 1) (hf2 : ∀ x, f x ≤ r) (hf3 : 1 ≤ r → f (r - 1) = r) :
    (flmInner 0 l.length r f (b2j l (l.getD r default)) (fun _ => 0) (0, 0, r)).2
        = (0, 0, r + 1)
    ∧ (∀ x, (flmInner 0 l.length r f (b2j l (l.getD r default)) (fun _ => 0) (0, 0, r)).1 x
        ≤ x + 1)
    ∧ (∀ x, (flmInner 0 l.length r f (b2j l (l.getD r default)) (fun _ => 0) (0, 0, r)).1 x
        ≤ r + 1)
    ∧ (flmInner 0 l.length r f (b2j l (l.getD r default)) (fun _ => 0) (0, 0, r)).1 r
        = r + 1 := by
  have hkr : kOf f r = r + 1 := by
    unfold kOf
    by_cases h0 : r = 0
    · simp [h0]
    · rw [if_neg h0, hf3 (by omega)]
  obtain ⟨u, v, huv⟩ := List.append_of_mem (self_mem_b2j hr)
  have hpw : (b2j l (l.getD r default)).Pairwise (· < ·) := b2j_pairwise l _
  have hjlt : ∀ j ∈ b2j l (l.getD r default), j < l.length :=
    fun j hj => (mem_b2j.mp hj).1
  rw [huv] at hpw hjlt
  have hu_lt : ∀ x ∈ u, x < r := by
    intro x hx
    exact (List.pairwise_append.mp hpw).2.2 x hx r (List.mem_cons_self _ _)
  have hv_gt : ∀ y ∈ v, r < y := by
    intro y hy
    exact (List.pairwise_cons.mp (List.pairwise_append.mp hpw).2.1).1 y hy
  have hu_bhi : ∀ j ∈ u, j < l.length :=
    fun j hj => hjlt j (List.mem_append_left _ hj)
  have hv_bhi : ∀ j ∈ v, j < l.length :=
    fun j hj => hjlt j (List.mem_append_right _ (List.mem_cons_of_mem _ hj))
  rw [huv]
  rw [flmInner_append 0 l.length r f u (r :: v) hu_bhi]
  have hu_small : ∀ j ∈ u, kOf f j ≤ ((0, 0, r) : Nat × Nat × Nat).2.2 := by
    intro j hj
    have hjr : j < r := hu_lt j hj
    have h2 := kOf_le_succ f hf1 j
    show kOf f j ≤ r
    omega
  have hbu : (flmInner 0 l.length r f u (fun _ => 0) (0, 0, r)).2 = (0, 0, r) :=
    flmInner_no_update 0 l.length r f u (fun _ => 0) (0, 0, r) hu_bhi hu_small
  have hau := flmInner_acc_bound 0 l.length r f r hf1 hf2 u (fun _ => 0) (0, 0, r)
    (fun x => Nat.zero_le _) (fun x => Nat.zero_le _)
  rw [hbu]
  -- one step at the diagonal position r
  simp only [flmInner, if_neg (by omega : ¬ r < 0), if_neg (by omega : ¬ l.length ≤ r),
    hkr, if_pos (by omega : r < r + 1)]
  have hsub : r + 1 - (r + 1) = 0 := by omega
  rw [hsub]
  -- phase v
  set accu := (flmInner 0 l.length r f u (fun _ => 0) (0, 0, r)).1 with haccu
  have hacc2_1 : ∀ x, (fun x => if x = r then r + 1 else accu x) x ≤ x + 1 := by
    intro x
    by_cases hx : x = r
    · subst hx; simp
    · simp only [if_neg hx]; exact hau.1 x
  have hacc2_2 : ∀ x, (fun x => if x = r then r + 1 else accu x) x ≤ r + 1 := by
    intro x
    by_cases hx : x = r
    · subst hx; simp
    · simp only [if_neg hx]; exact hau.2 x
  have hv_small : ∀ j ∈ v, kOf f j ≤ ((0, 0, r + 1) : Nat × Nat × Nat).2.2 := by
    intro j hj
    have := kOf_le_bound f r hf2 j
    simpa using this
  refine ⟨?_, ?_, ?_, ?_⟩
  · exact flmInner_no_update 0 l.length r f v _ (0, 0, r + 1) hv_bhi hv_small
  · exact (flmInner_acc_bound 0 l.length r f r hf1 hf2 v _ (0, 0, r + 1)
      hacc2_1 hacc2_2).1
  · exact (flmInner_acc_bound 0 l.length r f r hf1 hf2 v _ (0, 0, r + 1)
      hacc2_1 hacc2_2).2
  · have hrv : r ∉ v := fun h => absurd (hv_gt r h) (by omega)
    rw [flmInner_acc_not_mem 0 l.length r f v _ (0, 0, r + 1) r hrv]
    simp

theorem flmOuter_self (l : List Char) :
    ∀ (k r : Nat) (f : Nat → Nat), r + k = l.length →
      (∀ x, f x ≤ x + 1) → (∀ x, f x ≤ r) → (1 ≤ r → f (r - 1) = r) →
      flmOuter l (b2j l) 0 l.length (List.range' r k) f (0, 0, r)
        = (0, 0, l.length) := by
  intro k
  induction k with
  | zero =>
    intro r f hrk _ _ _
    have : r = l.length := by omega
    subst this
    rfl
  | succ k ih =>
    intro r f hrk hf1 hf2 hf3
    have hr : r < l.length := by omega
    have hrow := flm_row l r hr f hf1 hf2 hf3
    rw [List.range'_succ]
    simp only [flmOuter]
    rw [hrow.1]
    exact ih (r + 1) _ (by omega) hrow.2.1 hrow.2.2.1
      (fun _ => by simpa using hrow.2.2.2)

theorem findLongestMatch_self (l : List Char) :
    findLongestMatch l l (b2j l) 0 l.length 0 l.length = (0, 0, l.length) := by
  unfold findLongestMatch
  have hcore : flmOuter l (b2j l) 0 l.length (List.range' 0 (l.length - 0))
      (fun _ => 0) (0, 0, 0) = (0, 0, l.length) := by
    have h0 : l.length - 0 = l.length := by omega
    rw [h0]
    exact flmOuter_self l l.length 0 (fun _ => 0) (by omega)
      (fun x => Nat.zero_le _) (fun x => Nat.le_refl 0) (fun h => absurd h (by omega))
  rw [hcore]
  show (0, 0, extendRight l l l.length l.length 0 0 l.length l.length)
      = (0, 0, l.length)
  have hstop : ∀ fuel, extendRight l l l.length l.length 0 0 fuel l.length
      = l.length := by
    intro fuel
    cases fuel with
    | zero => rfl
    | succ m =>
      simp only [extendRight]
      rw [if_neg]
      simp

  rw [hstop]

theorem matchTotal_self (l : List Char) (fuel : Nat) (hfuel : 1 ≤ fuel)
    (hl : l ≠ []) :
    matchTotal l l (b2j l) fuel 0 l.length 0 l.length = l.length := by
  cases fuel with
  | zero => omega
  | succ f =>
    have hn : l.length ≠ 0 := by
      simpa using fun h => hl (List.length_eq_zero.mp h)
    simp only [matchTotal, findLongestMatch_self l]
    rw [if_neg hn]
    simp

theorem seqRatio_self (l : List Char) : seqRatio l l = 1 := by
  unfold seqRatio
  by_cases h : l.length + l.length = 0
  · rw [if_pos h]
  · rw [if_neg h]
    have hl : l ≠ [] := by
      intro he
      subst he
      simp at h
    rw [matchTotal_self l _ (by omega) hl]
    have hn : (0 : Rat) < (l.length : Rat) + (l.length : Rat) := by
      have h1 : 0 < l.length := by omega
      positivity
    rw [div_eq_one_iff_eq (ne_of_gt hn)]
    ring

/-- The `_similarity` of any string with itself is exactly 1 (difflib's
ratio of two equal sequences). -/
theorem similarity_self (s : String) : similarity s s = 1 :=
  seqRatio_self _

/-! ### Deduplication lemmas -/

theorem dedupGo_mono (θ : Rat) :
    ∀ (cs acc : List String) (x : String), x ∈ acc → x ∈ dedupGo θ cs acc := by
  intro cs
  induction cs with
  | nil => intro acc x hx; exact hx
  | cons c cs ih =>
    intro acc x hx
    by_cases hc : c = ""
    · simp only [dedupGo, if_pos hc]
      exact ih acc x hx
    · by_cases hd : acc.any fun e => θ ≤ similarity c e
      · simp only [dedupGo, if_neg hc, if_pos hd]
        exact ih acc x hx
      · simp only [dedupGo, if_neg hc, if_neg hd]
        exact ih _ x (List.mem_cons_of_mem _ hx)

theorem dedupGo_no_empty (θ : Rat) :
    ∀ (cs acc : List String), (∀ x ∈ acc, x ≠ "") →
      ∀ x ∈ dedupGo θ cs acc, x ≠ "" := by
  intro cs
  induction cs with
  | nil => intro acc ha x hx; exact ha x hx
  | cons c cs ih =>
    intro acc ha x hx
    by_cases hc : c = ""
    · simp only [dedupGo, if_pos hc] at hx
      exact ih acc ha x hx
    · by_cases hd : acc.any fun e => θ ≤ similarity c e
      · simp only [dedupGo, if_neg hc, if_pos hd] at hx
        exact ih acc ha x hx
      · simp only [dedupGo, if_neg hc, if_neg hd] at hx
        refine ih _ ?_ x hx
        intro y hy
        rcases List.mem_cons.mp hy with rfl | hy
        · exact hc
        · exact ha y hy

theorem dedupGo_covered (θ : Rat) (hθ : θ ≤ 1) :
    ∀ (cs acc : List String), ∀ c ∈ cs, c ≠ "" →
      ∃ e ∈ dedupGo θ cs acc, θ ≤ similarity c e := by
  intro cs
  induction cs with
  | nil => intro acc c hc; cases hc
  | cons c0 cs ih =>
    intro acc c hc hcne
    by_cases h0 : c0 = ""
    · simp only [dedupGo, if_pos h0]
      rcases List.mem_cons.mp hc with rfl | hc
      · exact absurd h0 hcne
      · exact ih acc c hc hcne
    · by_cases hd : acc.any fun e => θ ≤ similarity c0 e
      · simp only [dedupGo, if_neg h0, if_pos hd]
        rcases List.mem_cons.mp hc with rfl | hc
        · obtain ⟨e, he, hsim⟩ := List.any_eq_true.mp hd
          exact ⟨e, dedupGo_mono θ cs acc e he, of_decide_eq_true hsim⟩
        · exact ih acc c hc hcne
      · simp only [dedupGo, if_neg h0, if_neg hd]
        rcases List.mem_cons.mp hc with rfl | hc
        · refine ⟨c, dedupGo_mono θ cs _ c (List.mem_cons_self _ _), ?_⟩
          rw [similarity_self]
          exact hθ
        · exact ih _ c hc hcne

theorem dedupGo_no_insert (θ : Rat) :
    ∀ (cs acc : List String),
      (∀ c ∈ cs, c ≠ "" → ∃ e ∈ acc, θ ≤ similarity c e) →
      dedupGo θ cs acc = acc := by
  intro cs
  induction cs with
  | nil => intro acc _; rfl
  | cons c cs ih =>
    intro acc hcov
    by_cases hc : c = ""
    · simp only [dedupGo, if_pos hc]
      exact ih acc fun x hx hxne => hcov x (List.mem_cons_of_mem _ hx) hxne
    · obtain ⟨e, he, hsim⟩ := hcov c (List.mem_cons_self _ _) hc
      have hd : acc.any (fun e => θ ≤ similarity c e) = true := by
        rw [List.any_eq_true]
        exact ⟨e, he, decide_eq_true hsim⟩
      simp only [dedupGo, if_neg hc, if_pos hd]
      exact ih acc fun x hx hxne => hcov x (List.mem_cons_of_mem _ hx) hxne

theorem filter_ne_empty_eq_self {l : List String} (h : ∀ x ∈ l, x ≠ "") :
    (l.filter fun s => s ≠ "") = l := by
  rw [List.filter_eq_self]
  intro a ha
  exact decide_eq_true (h a ha)

/-- Deduplicating the same new items twice changes nothing the second
time: every non-empty new item either went in (and is fully similar to
itself) or was dropped against an entry that is still present. -/
theorem deduplicate_idem (E N : List String) (θ : Rat) (hθ : θ ≤ 1) :
    deduplicate (deduplicate E N θ) N θ = deduplicate E N θ := by
  have hne : ∀ x ∈ deduplicate E N θ, x ≠ "" := by
    intro x hx
    refine dedupGo_no_empty θ N _ ?_ x hx
    intro y hy
    simpa using (List.mem_filter.mp hy).2
  show dedupGo θ N ((deduplicate E N θ).filter fun s => s ≠ "") = deduplicate E N θ
  rw [filter_ne_empty_eq_self hne]
  exact dedupGo_no_insert θ N _ fun c hc hcne => dedupGo_covered θ hθ N _ c hc hcne

/-! ## Theorems for the merger claims (C6 - C10) -/

/-- C6 (amended): for a non-empty candidate and a list of non-empty
existing entries (the merger silently drops empty or non-string values),
merging a single new entry compares it against every existing entry with
the case-insensitive sequence-similarity ratio; it is discarded when some
ratio reaches the threshold, otherwise inserted at the front. -/
theorem C6_dedup_prepend_if_not_duplicate (existing : List String) (c : String)
    (θ : Rat) (hc : c ≠ "") (he : ∀ e ∈ existing, e ≠ "") :
    deduplicate existing [c] θ
      = if existing.any (fun e => θ ≤ similarity c e) then existing
        else c :: existing := by
  show dedupGo θ [c] (existing.filter fun s => s ≠ "") =
    if existing.any (fun e => θ ≤ similarity c e) then existing else c :: existing
  rw [filter_ne_empty_eq_self he]
  by_cases hd : existing.any fun e => θ ≤ similarity c e
  · simp only [dedupGo, if_neg hc, if_pos hd]
  · simp only [dedupGo, if_neg hc, if_neg hd]

theorem C6_witness :
    ("bcd" : String) ≠ ""
    ∧ (∀ e ∈ (["xyz"] : List String), e ≠ "")
    ∧ deduplicate ["xyz"] ["bcd"] (8 / 10)
        = if (["xyz"] : List String).any (fun e => (8 / 10 : Rat) ≤ similarity "bcd" e)
          then ["xyz"] else "bcd" :: ["xyz"] :=
  ⟨by decide, by decide,
    C6_dedup_prepend_if_not_duplicate ["xyz"] "bcd" (8 / 10) (by decide) (by decide)⟩

/-- C6 counterexample (for the unrestricted claim): with an existing list
holding the empty string, the merger silently filters the empty entry
away, so the result is neither the unchanged existing list (the discard
outcome) nor the candidate prepended to the existing list (the insert
outcome) — the two outcomes the claim allows. -/
theorem C6_counterexample :
    deduplicate [""] ["x"] (8 / 10) = ["x"]
    ∧ deduplicate [""] ["x"] (8 / 10) ≠ [""]
    ∧ deduplicate [""] ["x"] (8 / 10) ≠ "x" :: [""] := by
  refine ⟨by decide, by decide, by decide⟩

theorem merge_session_some_fields (today : String) (wiki : WikiKnowledge)
    (session : SessionContext) (mr : Int) (w' : WikiKnowledge)
    (h : merge_session today wiki session mr = some w') :
    w'.decisions = deduplicate wiki.decisions session.decisions_made (8 / 10)
    ∧ w'.issues = deduplicate wiki.issues session.problems_solved (8 / 10)
    ∧ w'.architecture = wiki.architecture
    ∧ w'.patterns = wiki.patterns
    ∧ w'.key_symbols = wiki.key_symbols := by
  unfold merge_session at h
  by_cases hs : session.summary = ""
  · rw [if_pos hs] at h
    obtain rfl := (Option.some.inj h).symm
    exact ⟨rfl, rfl, rfl, rfl, rfl⟩
  · rw [if_neg hs] at h
    cases hrot : rotateRecent wiki.recent_work
        ("[" ++ today ++ "] " ++ session.summary) mr with
    | none => rw [hrot] at h; cases h
    | some r =>
      rw [hrot] at h
      obtain rfl := (Option.some.inj h).symm
      exact ⟨rfl, rfl, rfl, rfl, rfl⟩

/-- C7: merging the same `SessionContext` a second time (threshold 0.8,
`max_recent = 5`) adds no decision and no issue entry: the second merge's
decisions and issues lists equal the first merge's, because each item
either was inserted (and scores similarity 1 ≥ 0.8 against itself) or was
dropped against a still-present entry. -/
theorem C7_merge_idempotent_on_decisions_issues (today1 today2 : String)
    (wiki : WikiKnowledge) (session : SessionContext) (w1 w2 : WikiKnowledge)
    (h1 : merge_session today1 wiki session 5 = some w1)
    (h2 : merge_session today2 w1 session 5 = some w2) :
    w2.decisions = w1.decisions ∧ w2.issues = w1.issues := by
  obtain ⟨hd1, hi1, _, _, _⟩ := merge_session_some_fields _ _ _ _ _ h1
  obtain ⟨hd2, hi2, _, _, _⟩ := merge_session_some_fields _ _ _ _ _ h2
  have hθ : (8 / 10 : Rat) ≤ 1 := by norm_num
  constructor
  · rw [hd2, hd1, deduplicate_idem _ _ _ hθ]
  · rw [hi2, hi1, deduplicate_idem _ _ _ hθ]

theorem C7_witness :
    merge_session "d1" {} { summary := "s" } 5
        = some { recent_work := ["[d1] s"] }
    ∧ merge_session "d2" { recent_work := ["[d1] s"] } { summary := "s" } 5
        = some { recent_work := ["[d2] s", "[d1] s"] }
    ∧ ({ recent_work := ["[d2] s", "[d1] s"] } : WikiKnowledge).decisions
        = ({ recent_work := ["[d1] s"] } : WikiKnowledge).decisions
    ∧ ({ recent_work := ["[d2] s", "[d1] s"] } : WikiKnowledge).issues
        = ({ recent_work := ["[d1] s"] } : WikiKnowledge).issues :=
  ⟨by decide, by decide,
    C7_merge_idempotent_on_decisions_issues "d1" "d2" {} { summary := "s" }
      _ _ (by decide) (by decide)⟩

theorem merge_session_recent (today : String) (wiki : WikiKnowledge)
    (session : SessionContext) (hs : session.summary ≠ "") :
    merge_session today wiki session 5
      = some { wiki with
          decisions := deduplicate wiki.decisions session.decisions_made (8 / 10),
          issues := deduplicate wiki.issues session.problems_solved (8 / 10),
          recent_work :=
            (("[" ++ today ++ "] " ++ session.summary) :: wiki.recent_work).take 5 } := by
  unfold merge_session rotateRecent
  rw [if_neg hs, if_neg (by norm_num : ¬ (5 : Int) ≤ 0)]
  rfl

theorem mergeMany_append_single (wiki : WikiKnowledge)
    (l : List (String × SessionContext)) (p : String × SessionContext) :
    mergeMany wiki (l ++ [p])
      = (mergeMany wiki l).bind fun w => merge_session p.1 w p.2 5 := by
  unfold mergeMany
  rw [List.foldlM_append]
  cases List.foldlM (fun w q => merge_session q.1 w q.2 5) wiki l with
  | none => rfl
  | some w => simp [List.foldlM]

theorem mergeMany_recent (wiki : WikiKnowledge) (h0 : wiki.recent_work = []) :
    ∀ l : List (String × SessionContext), (∀ p ∈ l, p.2.summary ≠ "") →
      ∃ w', mergeMany wiki l = some w'
        ∧ w'.recent_work.length = min l.length 5
        ∧ (∀ l₀ p, l = l₀ ++ [p] →
            w'.recent_work.head? = some ("[" ++ p.1 ++ "] " ++ p.2.summary)) := by
  intro l
  induction l using List.reverseRecOn with
  | nil =>
    intro _
    exact ⟨wiki, rfl, by simp [h0], fun l₀ p hp => absurd hp (by simp)⟩
  | append_singleton l p ih =>
    intro hs
    obtain ⟨w1, hw1, hlen1, _⟩ := ih fun q hq => hs q (List.mem_append_left _ hq)
    have hps : p.2.summary ≠ "" :=
      hs p (List.mem_append_right _ (List.mem_cons_self _ _))
    refine ⟨{ w1 with
        decisions := deduplicate w1.decisions p.2.decisions_made (8 / 10),
        issues := deduplicate w1.issues p.2.problems_solved (8 / 10),
        recent_work :=
          (("[" ++ p.1 ++ "] " ++ p.2.summary) :: w1.recent_work).take 5 },
      ?_, ?_, ?_⟩
    · rw [mergeMany_append_single, hw1, Option.some_bind,
        merge_session_recent p.1 w1 p.2 hps]
    · show (List.take 5 (("[" ++ p.1 ++ "] " ++ p.2.summary) :: w1.recent_work)).length
        = min (l ++ [p]).length 5
      rw [List.length_take, List.length_cons, hlen1, List.length_append]
      simp only [List.length_singleton]
      omega
    · intro l₀ q hq
      have hqp : q = p := by
        have h1 := congrArg List.getLast? hq
        rw [List.getLast?_concat, List.getLast?_concat] at h1
        exact (Option.some.inj h1).symm
      subst hqp
      show (List.take 5 (("[" ++ q.1 ++ "] " ++ q.2.summary) :: w1.recent_work)).head?
        = some ("[" ++ q.1 ++ "] " ++ q.2.summary)
      rw [List.take_succ_cons]
      rfl

/-- C8: starting from an empty recent-work list, after `N` merges that
each contribute one (non-empty) summary with `max_recent = 5`, the
recent-work list has length `min N 5` and its first element is the
date-stamped entry of the most recent merge. -/
theorem C8_rotation_invariant (wiki : WikiKnowledge)
    (l : List (String × SessionContext)) (h0 : wiki.recent_work = [])
    (hs : ∀ p ∈ l, p.2.summary ≠ "") (hl : l ≠ []) :
    ∃ w', mergeMany wiki l = some w'
      ∧ w'.recent_work.length = min l.length 5
      ∧ w'.recent_work.head?
          = some ("[" ++ (l.getLast hl).1 ++ "] " ++ (l.getLast hl).2.summary) := by
  obtain ⟨w', hw, hlen, hhead⟩ := mergeMany_recent wiki h0 l hs
  rcases List.eq_nil_or_concat l with rfl | ⟨l₀, p, hlp⟩
  · exact absurd rfl hl
  · rw [List.concat_eq_append] at hlp
    subst hlp
    refine ⟨w', hw, hlen, ?_⟩
    rw [hhead l₀ p rfl, List.getLast_concat]

theorem C8_witness :
    (({} : WikiKnowledge).recent_work = [])
    ∧ (∀ p ∈ [("d1", ({ summary := "s1" } : SessionContext)),
              ("d2", ({ summary := "s2" } : SessionContext))], p.2.summary ≠ "")
    ∧ ([("d1", ({ summary := "s1" } : SessionContext)),
        ("d2", ({ summary := "s2" } : SessionContext))] ≠ [])
    ∧ (∃ w', mergeMany {}
          [("d1", ({ summary := "s1" } : SessionContext)),
           ("d2", ({ summary := "s2" } : SessionContext))] = some w'
        ∧ w'.recent_work.length
            = min ([("d1", ({ summary := "s1" } : SessionContext)),
                    ("d2", ({ summary := "s2" } : SessionContext))]).length 5
        ∧ w'.recent_work.head?
            = some ("[" ++
                (([("d1", ({ summary := "s1" } : SessionContext)),
                   ("d2", ({ summary := "s2" } : SessionContext))]).getLast (by decide)).1
                ++ "] " ++
                (([("d1", ({ summary := "s1" } : SessionContext)),
                   ("d2", ({ summary := "s2" } : SessionContext))]).getLast
                    (by decide)).2.summary)) :=
  ⟨rfl, by decide, by decide,
    C8_rotation_invariant {}
      [("d1", { summary := "s1" }), ("d2", { summary := "s2" })]
      rfl (by decide) (by decide)⟩

/-- C9: a (successful) merge leaves the architecture, patterns and
key-symbols fields of the knowledge base exactly unchanged — only the
separate enrichment pass ever writes them. -/
theorem C9_merge_preserves_enrichment_sections (today : String)
    (wiki : WikiKnowledge) (session : SessionContext) (mr : Int)
    (w' : WikiKnowledge) (h : merge_session today wiki session mr = some w') :
    w'.architecture = wiki.architecture
    ∧ w'.patterns = wiki.patterns
    ∧ w'.key_symbols = wiki.key_symbols :=
  (merge_session_some_fields today wiki session mr w' h).2.2

theorem C9_witness :
    merge_session "d" { architecture := "arch", patterns := ["p"], key_symbols := ["k"] }
        {} 5 = some { architecture := "arch", patterns := ["p"], key_symbols := ["k"] }
    ∧ (({ architecture := "arch", patterns := ["p"], key_symbols := ["k"] }
          : WikiKnowledge).architecture
        = ({ architecture := "arch", patterns := ["p"], key_symbols := ["k"] }
          : WikiKnowledge).architecture
      ∧ ({ architecture := "arch", patterns := ["p"], key_symbols := ["k"] }
          : WikiKnowledge).patterns
        = ({ architecture := "arch", patterns := ["p"], key_symbols := ["k"] }
          : WikiKnowledge).patterns
      ∧ ({ architecture := "arch", patterns := ["p"], key_symbols := ["k"] }
          : WikiKnowledge).key_symbols
        = ({ architecture := "arch", patterns := ["p"], key_symbols := ["k"] }
          : WikiKnowledge).key_symbols) :=
  ⟨by decide,
    C9_merge_preserves_enrichment_sections "d"
      { architecture := "arch", patterns := ["p"], key_symbols := ["k"] } {} 5
      _ (by decide)⟩

/-- C10: when the session summary is the empty string, the merge leaves
`recent_work` exactly unchanged — no date-stamped entry is prepended and
no truncation happens — while decisions and issues are still merged. -/
theorem C10_empty_summary_keeps_recent_work (today : String)
    (wiki : WikiKnowledge) (session : SessionContext) (mr : Int)
    (hmr : 0 < mr) (hs : session.summary = "") :
    ∃ w', merge_session today wiki session mr = some w'
      ∧ w'.recent_work = wiki.recent_work
      ∧ w'.decisions = deduplicate wiki.decisions session.decisions_made (8 / 10)
      ∧ w'.issues = deduplicate wiki.issues session.problems_solved (8 / 10) := by
  refine ⟨{ wiki with
      decisions := deduplicate wiki.decisions session.decisions_made (8 / 10),
      issues := deduplicate wiki.issues session.problems_solved (8 / 10) },
    ?_, rfl, rfl, rfl⟩
  unfold merge_session
  rw [if_pos hs]

theorem C10_witness :
    (0 : Int) < 5
    ∧ (({} : SessionContext).summary = "")
    ∧ (∃ w', merge_session "d"
          { recent_work := ["r1", "r2", "r3", "r4", "r5", "r6"] } {} 5 = some w'
        ∧ w'.recent_work
            = ({ recent_work := ["r1", "r2", "r3", "r4", "r5", "r6"] }
                : WikiKnowledge).recent_work
        ∧ w'.decisions
            = deduplicate ({ recent_work := ["r1", "r2", "r3", "r4", "r5", "r6"] }
                : WikiKnowledge).decisions (({} : SessionContext)).decisions_made (8 / 10)
        ∧ w'.issues
            = deduplicate ({ recent_work := ["r1", "r2", "r3", "r4", "r5", "r6"] }
                : WikiKnowledge).issues (({} : SessionContext)).problems_solved (8 / 10)) :=
  ⟨by decide, rfl,
    C10_empty_summary_keeps_recent_work "d"
      { recent_work := ["r1", "r2", "r3", "r4", "r5", "r6"] } {} 5
      (by decide) rfl⟩

end ContextTracker
